import Mathlib

/-!
Verification development for the PE Org-AI-R platform: the composite
scoring engine, the signal deduplication pipeline, the Glassdoor rubric
scorer and culture-score persistence, the audit page confidence display,
and the API playground validation logic.

Numeric values are modelled in ℚ.  Components whose Python sources are
only documented (schemas, README, frontend consumers) are modelled from
the specification, as marked in each doc comment.
-/

/-- A dimension input to the composite scoring engine: an aggregated
score in [0,100] together with a confidence in [0,1]. -/
structure DimInput where
  score : ℚ
  confidence : ℚ
deriving DecidableEq

/-- The four fixed dimension weights, in order technology_hiring,
innovation_activity, digital_presence, leadership_signals
(0.30 / 0.25 / 0.25 / 0.20, as shown in the readiness page column
headers "Hiring (30%)", "Innovation (25%)", "Digital (25%)",
"Leadership (20%)"). -/
def dimWeight : Fin 4 → ℚ
  | 0 => 3/10
  | 1 => 1/4
  | 2 => 1/4
  | 3 => 1/5

/-- Modelled from the spec: the total fixed weight of the dimensions
that have data (`none` marks a dimension with zero contributing
Signals). -/
def presentWeight (dims : Fin 4 → Option DimInput) : ℚ :=
  ∑ i, if (dims i).isSome then dimWeight i else 0

/-- Modelled from the spec: the weight-score products of the present
dimensions; missing dimensions contribute 0 (their score defaults to 0). -/
def weightedScoreSum (dims : Fin 4 → Option DimInput) : ℚ :=
  ∑ i, ((dims i).map (fun d => dimWeight i * d.score)).getD 0

/-- Modelled from the spec: the weight-confidence products of the
present dimensions. -/
def weightedConfSum (dims : Fin 4 → Option DimInput) : ℚ :=
  ∑ i, ((dims i).map (fun d => dimWeight i * d.confidence)).getD 0

/-- Modelled from the spec: the number of dimensions with data. -/
def presentCount (dims : Fin 4 → Option DimInput) : ℕ :=
  ∑ i, if (dims i).isSome then 1 else 0

/-- Modelled from the spec: the composite score.  A missing dimension's
weight is redistributed proportionally across the dimensions with data,
which is exactly division by the present weight; with no data at all the
composite is 0. -/
def compositeScore (dims : Fin 4 → Option DimInput) : ℚ :=
  if presentWeight dims = 0 then 0 else weightedScoreSum dims / presentWeight dims

/-- Modelled from the spec: the weight actually used for dimension `i`
in the combination, after proportional redistribution of missing
dimensions' weights. -/
def usedWeight (dims : Fin 4 → Option DimInput) (i : Fin 4) : ℚ :=
  if (dims i).isSome then dimWeight i / presentWeight dims else 0

/-- Modelled from the spec: overall confidence is the weighted average
of the per-dimension confidences of the dimensions with data, discounted
by the fraction of the four dimensions that are present. -/
def overallConfidence (dims : Fin 4 → Option DimInput) : ℚ :=
  if presentWeight dims = 0 then 0
  else (weightedConfSum dims / presentWeight dims) * (presentCount dims / 4)

theorem dimWeight_pos (i : Fin 4) : 0 < dimWeight i := by
  fin_cases i <;> norm_num [dimWeight]

theorem presentWeight_nonneg (dims : Fin 4 → Option DimInput) :
    0 ≤ presentWeight dims := by
  refine Finset.sum_nonneg fun i _ => ?_
  split
  · exact le_of_lt (dimWeight_pos i)
  · exact le_refl 0

theorem weightedScoreSum_nonneg (dims : Fin 4 → Option DimInput)
    (h : ∀ i d, dims i = some d → 0 ≤ d.score) :
    0 ≤ weightedScoreSum dims := by
  refine Finset.sum_nonneg fun i _ => ?_
  rcases hd : dims i with _ | d
  · simp
  · simpa using mul_nonneg (le_of_lt (dimWeight_pos i)) (h i d hd)

theorem weightedScoreSum_le (dims : Fin 4 → Option DimInput)
    (h : ∀ i d, dims i = some d → d.score ≤ 100) :
    weightedScoreSum dims ≤ 100 * presentWeight dims := by
  rw [presentWeight, Finset.mul_sum]
  refine Finset.sum_le_sum fun i _ => ?_
  rcases hd : dims i with _ | d
  · simp
  · simpa [mul_comm, mul_left_comm] using
      mul_le_mul_of_nonneg_left (h i d hd) (le_of_lt (dimWeight_pos i))

theorem compositeScore_nonneg (dims : Fin 4 → Option DimInput)
    (h : ∀ i d, dims i = some d → 0 ≤ d.score) :
    0 ≤ compositeScore dims := by
  unfold compositeScore
  split
  · exact le_refl 0
  · exact div_nonneg (weightedScoreSum_nonneg dims h) (presentWeight_nonneg dims)

theorem compositeScore_le (dims : Fin 4 → Option DimInput)
    (h : ∀ i d, dims i = some d → d.score ≤ 100) :
    compositeScore dims ≤ 100 := by
  unfold compositeScore
  split
  · norm_num
  · rename_i hw
    have hpos : 0 < presentWeight dims :=
      lt_of_le_of_ne (presentWeight_nonneg dims) (Ne.symm hw)
    rw [div_le_iff₀ hpos]
    simpa [mul_comm] using weightedScoreSum_le dims h

theorem usedWeight_sum (dims : Fin 4 → Option DimInput)
    (hw : presentWeight dims ≠ 0) :
    ∑ i, usedWeight dims i = 1 := by
  have : ∀ i : Fin 4, usedWeight dims i =
      (if (dims i).isSome then dimWeight i else 0) / presentWeight dims := by
    intro i
    unfold usedWeight
    split <;> simp
  rw [Finset.sum_congr rfl fun i _ => this i, ← Finset.sum_div, ← presentWeight,
    div_self hw]

theorem sum_update_none {M : Type} [AddCommMonoid M]
    (dims : Fin 4 → Option DimInput) (j : Fin 4) (F : Fin 4 → Option DimInput → M) :
    (∑ i, F i (Function.update dims j none i)) + F j (dims j)
      = (∑ i, F i (dims i)) + F j none := by
  have h1 : ∑ i, F i (Function.update dims j none i)
      = (∑ i ∈ Finset.univ.erase j, F i (dims i)) + F j none := by
    rw [← Finset.sum_erase_add _ _ (Finset.mem_univ j), Function.update_same]
    congr 1
    refine Finset.sum_congr rfl fun i hi => ?_
    rw [Function.update_noteq (Finset.ne_of_mem_erase hi)]
  have h2 : (∑ i, F i (dims i))
      = (∑ i ∈ Finset.univ.erase j, F i (dims i)) + F j (dims j) :=
    (Finset.sum_erase_add _ _ (Finset.mem_univ j)).symm
  rw [h1, h2]
  abel

theorem presentWeight_update (dims : Fin 4 → Option DimInput) (j : Fin 4)
    (d : DimInput) (hj : dims j = some d) :
    presentWeight (Function.update dims j none) + dimWeight j = presentWeight dims := by
  have := sum_update_none dims j (fun i o => if o.isSome then dimWeight i else 0)
  simpa [presentWeight, hj] using this

theorem weightedConfSum_update (dims : Fin 4 → Option DimInput) (j : Fin 4)
    (d : DimInput) (hj : dims j = some d) :
    weightedConfSum (Function.update dims j none) + dimWeight j * d.confidence
      = weightedConfSum dims := by
  have := sum_update_none dims j
    (fun i o => (o.map (fun d' => dimWeight i * d'.confidence)).getD 0)
  simpa [weightedConfSum, hj] using this

theorem presentCount_update (dims : Fin 4 → Option DimInput) (j : Fin 4)
    (d : DimInput) (hj : dims j = some d) :
    presentCount (Function.update dims j none) + 1 = presentCount dims := by
  have := sum_update_none dims j (fun _ o => if o.isSome then (1 : ℕ) else 0)
  simpa [presentCount, hj] using this

theorem weightedConfSum_nonneg (dims : Fin 4 → Option DimInput)
    (h : ∀ i d, dims i = some d → 0 ≤ d.confidence) :
    0 ≤ weightedConfSum dims := by
  refine Finset.sum_nonneg fun i _ => ?_
  rcases hd : dims i with _ | d
  · simp
  · simpa using mul_nonneg (le_of_lt (dimWeight_pos i)) (h i d hd)

theorem overallConfidence_nonneg (dims : Fin 4 → Option DimInput)
    (h : ∀ i d, dims i = some d → 0 ≤ d.confidence) :
    0 ≤ overallConfidence dims := by
  unfold overallConfidence
  split
  · exact le_refl 0
  · exact mul_nonneg
      (div_nonneg (weightedConfSum_nonneg dims h) (presentWeight_nonneg dims))
      (div_nonneg (by positivity) (by norm_num))

theorem confidence_discount_core (cb wb wj cj : ℚ) (kb : ℕ)
    (hcb : 0 ≤ cb) (hwb : 0 < wb) (hwj : 0 < wj) (hle : cb ≤ cj * wb) :
    cb / wb * ((kb : ℚ) / 4) ≤ (cb + wj * cj) / (wb + wj) * (((kb : ℚ) + 1) / 4) := by
  have hwbj : 0 < wb + wj := by linarith
  have h1 : cb / wb ≤ (cb + wj * cj) / (wb + wj) := by
    rw [div_le_div_iff₀ hwb hwbj]
    nlinarith
  have h2 : ((kb : ℚ)) / 4 ≤ ((kb : ℚ) + 1) / 4 := by
    apply div_le_div_of_nonneg_right _ (by norm_num)
    linarith
  have h3 : 0 ≤ (kb : ℚ) / 4 := by positivity
  have h4 : 0 ≤ (cb + wj * cj) / (wb + wj) := by
    apply div_nonneg _ (le_of_lt hwbj)
    nlinarith
  calc cb / wb * ((kb : ℚ) / 4) ≤ (cb + wj * cj) / (wb + wj) * ((kb : ℚ) / 4) :=
        mul_le_mul_of_nonneg_right h1 h3
    _ ≤ (cb + wj * cj) / (wb + wj) * (((kb : ℚ) + 1) / 4) :=
        mul_le_mul_of_nonneg_left h2 h4

/-- A canonical Signal record, after the fields of the
`external_signals` table (company_id, category, source, signal_date,
raw_value, normalized_score, confidence). -/
structure Signal where
  companyId : String
  category : String
  source : String
  signalDate : String
  rawValue : String
  normalizedScore : ℚ
  confidence : ℚ
deriving DecidableEq

/-- Modelled from the spec: the stable content hash over
target + category + source + date + raw_value (the `signal_hash` column
of `external_signals`); the collision-free fingerprint is modelled as
the tuple of the hashed fields themselves. -/
def contentHash (s : Signal) : String × String × String × String × String :=
  (s.companyId, s.category, s.source, s.signalDate, s.rawValue)

/-- Modelled from the spec: the Normalizer / Deduplicator emits a Signal
only when no Signal with the same content hash is already stored
(conditional merge-by-natural-key against the `signal_hash UNIQUE`
column). -/
def insertSignal (store : List Signal) (s : Signal) : List Signal :=
  if contentHash s ∈ store.map contentHash then store else store ++ [s]

/-- Modelled from the spec: one full pipeline run folds every normalized
observation into the store through the deduplicating insert. -/
def runPipeline (store : List Signal) (obs : List Signal) : List Signal :=
  obs.foldl insertSignal store

/-- The four signal categories feeding the four dimension scores, after
the `company_signal_summaries` columns. -/
def categoryName : Fin 4 → String
  | 0 => "technology_hiring"
  | 1 => "innovation_activity"
  | 2 => "digital_presence"
  | 3 => "leadership_signals"

/-- Modelled from the spec: a dimension input aggregated from the
stored Signals of one category, each Signal's normalized score weighted
by its own confidence; a category with no Signals yields `none`. -/
def categoryDim (store : List Signal) (cat : String) : Option DimInput :=
  let sigs := store.filter (fun s => s.category == cat)
  if sigs.isEmpty then none
  else
    let tc := (sigs.map (fun s => s.confidence)).sum
    some { score := if tc = 0 then 0
             else (sigs.map (fun s => s.confidence * s.normalizedScore)).sum / tc,
           confidence := tc / sigs.length }

/-- Modelled from the spec: the CompositeScore re-derived purely from
the current stored Signals. -/
def compositeOfStore (store : List Signal) : ℚ :=
  compositeScore (fun i => categoryDim store (categoryName i))

theorem insertSignal_hash_mem (store : List Signal) (s : Signal) :
    contentHash s ∈ (insertSignal store s).map contentHash := by
  unfold insertSignal
  split
  · assumption
  · simp

theorem insertSignal_hash_mono (store : List Signal) (s : Signal)
    {x : String × String × String × String × String}
    (hx : x ∈ store.map contentHash) :
    x ∈ (insertSignal store s).map contentHash := by
  unfold insertSignal
  split
  · exact hx
  · simp only [List.map_append, List.mem_append]
    exact Or.inl hx

theorem runPipeline_hash_mono (obs : List Signal) (store : List Signal)
    {x : String × String × String × String × String}
    (hx : x ∈ store.map contentHash) :
    x ∈ (runPipeline store obs).map contentHash := by
  induction obs generalizing store with
  | nil => exact hx
  | cons a t ih => exact ih (insertSignal store a) (insertSignal_hash_mono store a hx)

theorem runPipeline_hash_covers (obs : List Signal) :
    ∀ (store : List Signal) (s : Signal), s ∈ obs →
      contentHash s ∈ (runPipeline store obs).map contentHash := by
  induction obs with
  | nil => intro _ _ hs; cases hs
  | cons a t ih =>
    intro store s hs
    rcases List.mem_cons.mp hs with hs | hs
    · subst hs
      exact runPipeline_hash_mono t _ (insertSignal_hash_mem store s)
    · exact ih _ s hs

theorem runPipeline_covered_eq (obs : List Signal) (store : List Signal)
    (h : ∀ s ∈ obs, contentHash s ∈ store.map contentHash) :
    runPipeline store obs = store := by
  induction obs generalizing store with
  | nil => rfl
  | cons a t ih =>
    have ha : insertSignal store a = store := by
      unfold insertSignal
      rw [if_pos (h a (List.mem_cons_self a t))]
    show runPipeline (insertSignal store a) t = store
    rw [ha]
    exact ih store fun s hs => h s (List.mem_cons_of_mem a hs)

theorem runPipeline_idem (store obs : List Signal) :
    runPipeline (runPipeline store obs) obs = runPipeline store obs :=
  runPipeline_covered_eq obs _ fun s hs => runPipeline_hash_covers obs store s hs


theorem insertSignal_nodup (store : List Signal) (s : Signal)
    (h : (store.map contentHash).Nodup) :
    ((insertSignal store s).map contentHash).Nodup := by
  unfold insertSignal
  split
  · exact h
  · rename_i hmem
    simpa [List.nodup_append] using And.intro h hmem

theorem runPipeline_nodup (obs : List Signal) (store : List Signal)
    (h : (store.map contentHash).Nodup) :
    ((runPipeline store obs).map contentHash).Nodup := by
  induction obs generalizing store with
  | nil => exact h
  | cons a t ih => exact ih _ (insertSignal_nodup store a h)

/-- One employee review, after the `glassdoor_reviews` table: rating,
free text (pros/cons), review date (as days since the epoch) and
employment status. -/
structure ReviewRecord where
  rating : ℚ
  text : String
  dateEpochDays : ℕ
  isCurrentEmployee : Bool
deriving DecidableEq

/-- Modelled from the spec: a recency weight that decays monotonically
with review age (in days); the exact decay curve is not recoverable from
the sources, any monotone decay satisfies the contract. -/
def recencyWeight (ageDays : ℕ) : ℚ :=
  1 / (1 + (ageDays : ℚ))

/-- Modelled from the spec: current employees carry a higher weight
multiplier than former employees. -/
def employmentWeight (isCurrent : Bool) : ℚ :=
  if isCurrent then 3/2 else 1

/-- Modelled from the spec: a review's aggregation weight is
recency_weight(review.date) × employment_weight(is_current_employee),
with age measured from the batch date `asOf`. -/
def reviewWeight (asOf : ℕ) (r : ReviewRecord) : ℚ :=
  recencyWeight (asOf - r.dateEpochDays) * employmentWeight r.isCurrentEmployee

/-- Modelled from the spec: the weighted average of a per-review score
over a review batch, using each review's aggregation weight. -/
def weightedAverage (asOf : ℕ) (revs : List ReviewRecord)
    (f : ReviewRecord → ℚ) : ℚ :=
  if (revs.map (reviewWeight asOf)).sum = 0 then 0
  else (revs.map (fun r => reviewWeight asOf r * f r)).sum
    / (revs.map (reviewWeight asOf)).sum

/-- A positive/negative keyword lexicon for one culture dimension. -/
structure Lexicon where
  positive : List String
  negative : List String

/-- Whether `kw` occurs as a substring of `text` (a non-trivial split
on `kw` witnesses an occurrence). -/
def containsKeyword (text kw : String) : Bool :=
  (text.splitOn kw).length != 1

/-- The number of lexicon keywords found in a review text. -/
def countHits (text : String) (lex : List String) : ℕ :=
  (lex.filter (containsKeyword text)).length

/-- Modelled from the spec: the raw per-review dimension score — base 3,
raised by positive keyword hits, lowered by negative keyword hits, and
clamped to the interval [1,5]. -/
def reviewDimScore (pos neg : ℕ) : ℚ :=
  max 1 (min 5 (3 + (pos : ℚ) - (neg : ℚ)))

/-- Modelled from the spec: score one review on one dimension by
scanning its text against the dimension's lexicon. -/
def dimReviewScore (lex : Lexicon) (r : ReviewRecord) : ℚ :=
  reviewDimScore (countHits r.text lex.positive) (countHits r.text lex.negative)

/-- Modelled from the spec: the aggregated 1–5 dimension score for a
review batch is the weighted average of the per-review rubric scores. -/
def aggregateDim (asOf : ℕ) (revs : List ReviewRecord) (lex : Lexicon) : ℚ :=
  weightedAverage asOf revs (dimReviewScore lex)

/-- Modelled from the spec: a curated lexicon for the innovation
dimension (the exact curated lists are not in the sources). -/
def innovationLexicon : Lexicon :=
  { positive := ["cutting-edge", "innovative", "new ideas"],
    negative := ["outdated", "resistant to change"] }

/-- Modelled from the spec: a curated lexicon for the data_driven
dimension. -/
def dataDrivenLexicon : Lexicon :=
  { positive := ["data-driven", "analytics"],
    negative := ["gut feeling", "no data"] }

/-- Modelled from the spec: a curated lexicon for the ai_awareness
dimension. -/
def aiAwarenessLexicon : Lexicon :=
  { positive := ["machine learning", "ai initiatives"],
    negative := ["no ai", "behind on technology"] }

/-- Modelled from the spec: a curated lexicon for the change_readiness
dimension. -/
def changeReadinessLexicon : Lexicon :=
  { positive := ["embraces change", "agile"],
    negative := ["rigid structure", "slow decision-making"] }

/-- Modelled from the spec: overall review confidence scales with the
review count — monotone increasing and saturating towards 1. -/
def reviewConfidence (n : ℕ) : ℚ :=
  (n : ℚ) / ((n : ℚ) + 5)

/-- A CultureScore row, after the `culture_scores` table: four 1–5
dimension scores, overall sentiment, review count, average rating and
confidence, keyed by (company_id, batch_date). -/
structure CultureScore where
  companyId : String
  batchDate : String
  innovationScore : ℚ
  dataDrivenScore : ℚ
  aiAwarenessScore : ℚ
  changeReadinessScore : ℚ
  overallSentiment : ℚ
  reviewCount : ℕ
  avgRating : ℚ
  confidence : ℚ
deriving DecidableEq

/-- The dimension-score columns of the `culture_scores` table, exactly
as declared in the schema. -/
def cultureScoreDimensionColumns : List String :=
  ["innovation_score", "data_driven_score", "ai_awareness_score",
   "change_readiness_score"]

/-- The three textual rubric dimensions named by the specification and
the README table. -/
def specTextualDimensions : List String :=
  ["innovation", "leadership", "adaptability"]

/-- Modelled from the spec: score a batch of reviews for one target and
batch date.  Zero reviews yield `none` (the CultureScore is omitted, not
zero-filled); otherwise every dimension is the weighted rubric average,
the overall sentiment is the average rating normalized to [0,1], and the
confidence scales with the review count. -/
def scoreBatch (companyId batchDate : String) (asOf : ℕ)
    (revs : List ReviewRecord) : Option CultureScore :=
  if revs.isEmpty then none
  else
    let avg := (revs.map (fun r => r.rating)).sum / revs.length
    some { companyId := companyId
           batchDate := batchDate
           innovationScore := aggregateDim asOf revs innovationLexicon
           dataDrivenScore := aggregateDim asOf revs dataDrivenLexicon
           aiAwarenessScore := aggregateDim asOf revs aiAwarenessLexicon
           changeReadinessScore := aggregateDim asOf revs changeReadinessLexicon
           overallSentiment := avg / 5
           reviewCount := revs.length
           avgRating := avg
           confidence := reviewConfidence revs.length }

/-- Modelled from the spec: the storage collaborator's conditional
merge-by-natural-key for CultureScore rows — the natural key is
(company_id, batch_date), as in the table's PRIMARY KEY; any existing
row with the same key is replaced. -/
def upsertCultureScore (store : List CultureScore) (cs : CultureScore) :
    List CultureScore :=
  cs :: store.filter
    (fun r => !(r.companyId == cs.companyId && r.batchDate == cs.batchDate))

/-- Modelled from the spec: one culture-scoring run for a target and
batch date — score the batch, and merge the result by key only when a
score was produced. -/
def writeCultureBatch (store : List CultureScore) (companyId batchDate : String)
    (asOf : ℕ) (revs : List ReviewRecord) : List CultureScore :=
  match scoreBatch companyId batchDate asOf revs with
  | none => store
  | some cs => upsertCultureScore store cs

/-- The number of stored CultureScore rows with the given natural key. -/
def keyCount (store : List CultureScore) (companyId batchDate : String) : ℕ :=
  (store.filter
    (fun r => r.companyId == companyId && r.batchDate == batchDate)).length

/-- A query parameter definition of the API playground (`ParamDef`):
name and whether the parameter is required. -/
structure ParamDef where
  name : String
  required : Bool

/-- The playground input state feeding `handleRun`: the path variables
with their current values, the endpoint's declared query parameters, and
the current query parameter values (`none` models a JavaScript
`undefined`/`null` value). -/
structure PlaygroundState where
  path : String
  pathParams : List (String × String)
  queryParams : List ParamDef
  paramValues : List (String × Option String)

/-- The value of a query parameter in the playground state; an absent
entry is `undefined`, modelled as `none`. -/
def getParamValue (vals : List (String × Option String)) (k : String) :
    Option String :=
  match vals.lookup k with
  | some v => v
  | none => none

/-- The JavaScript emptiness test on a query parameter value:
`val === undefined || val === "" || val === null`. -/
def isMissingValue : Option String → Bool
  | none => true
  | some v => v == ""

/-- The `handleRun` path-variable validation: the first path variable
whose value fails `!val || val.trim() === ""` produces a validation
error. -/
def findEmptyPathParam (ps : List (String × String)) : Option String :=
  (ps.find? (fun p => p.2.trim == "")).map (fun p => p.1)

/-- The `handleRun` required-query-parameter validation: the first
required parameter whose value is undefined, empty or null produces a
validation error. -/
def findMissingQueryParam (defs : List ParamDef)
    (vals : List (String × Option String)) : Option String :=
  (defs.find? (fun p => p.required && isMissingValue (getParamValue vals p.name))).map
    (fun p => p.name)

/-- The URL path with each `\x7bkey\x7d` placeholder replaced by its
path variable value, as `handleRun` builds `finalPath`. -/
def buildPath (path : String) (ps : List (String × String)) : String :=
  ps.foldl (fun acc kv => acc.replace ("\x7b" ++ kv.1 ++ "\x7d") kv.2) path

/-- The outcome of one `handleRun` invocation: either a validation error
set before any fetch, or an issued HTTP request. -/
inductive RunOutcome where
  | validationError (msg : String)
  | request (url : String)
deriving DecidableEq

/-- The playground's `handleRun`: validate every path variable, then
every required query parameter, and only if both pass issue the fetch
with the substituted path. -/
def handleRun (st : PlaygroundState) : RunOutcome :=
  match findEmptyPathParam st.pathParams with
  | some key => .validationError ("Path variable " ++ key ++ " is required.")
  | none =>
    match findMissingQueryParam st.queryParams st.paramValues with
    | some name => .validationError ("Query parameter " ++ name ++ " is required.")
    | none => .request (buildPath st.path st.pathParams)

/-- Whether a `handleRun` outcome issued an HTTP request. -/
def issuesRequest : RunOutcome → Prop
  | .validationError _ => False
  | .request _ => True

/-- The audit page's divisor for the confidence average:
`signals.length || 1` in JavaScript — the length, or 1 when the signal
list is empty. -/
def auditDivisor (n : ℕ) : ℕ :=
  if n = 0 then 1 else n

/-- The audit page's displayed confidence, as a fraction of 100:
`signals.reduce((acc, s) => acc + s.confidence, 0) / (signals.length || 1) * 100`. -/
def auditConfidence (confs : List ℚ) : ℚ :=
  confs.foldl (· + ·) 0 / (auditDivisor confs.length : ℚ) * 100

theorem findEmptyPathParam_eq_none (ps : List (String × String)) :
    findEmptyPathParam ps = none ↔ ∀ p ∈ ps, p.2.trim ≠ "" := by
  unfold findEmptyPathParam
  simp [List.find?_eq_none]

theorem findMissingQueryParam_eq_none (defs : List ParamDef)
    (vals : List (String × Option String)) :
    findMissingQueryParam defs vals = none ↔
      ∀ p ∈ defs, p.required = true →
        isMissingValue (getParamValue vals p.name) = false := by
  unfold findMissingQueryParam
  simp [List.find?_eq_none]

/-- Claim C9: the audit page's displayed confidence divides the sum of
the fetched signals' confidences by the length-or-one divisor, which
coincides with max(length, 1); the divisor is always at least 1 (the
computation is total, with no division by zero), and the empty signal
list yields confidence 0 rather than NaN. -/
theorem audit_confidence_safe :
    (∀ confs : List ℚ,
      auditConfidence confs
        = confs.foldl (· + ·) 0 / (max confs.length 1 : ℕ) * 100) ∧
    (∀ n : ℕ, auditDivisor n = max n 1) ∧
    (∀ n : ℕ, 1 ≤ auditDivisor n) ∧
    auditConfidence [] = 0 := by
  have hmax : ∀ n : ℕ, auditDivisor n = max n 1 := by
    intro n
    unfold auditDivisor
    split <;> omega
  refine ⟨fun confs => ?_, hmax, fun n => by rw [hmax]; omega, ?_⟩
  · rw [auditConfidence, hmax]
  · simp [auditConfidence, auditDivisor]

/-- Claim C10: the playground's handleRun issues an HTTP request exactly
when every path variable value is non-empty after trimming and every
required query parameter has a defined, non-empty value; in every other
input state it sets a validation error and returns before the fetch. -/
theorem handleRun_validates_before_fetch (st : PlaygroundState) :
    issuesRequest (handleRun st) ↔
      (∀ p ∈ st.pathParams, p.2.trim ≠ "") ∧
      (∀ p ∈ st.queryParams, p.required = true →
        isMissingValue (getParamValue st.paramValues p.name) = false) := by
  unfold handleRun
  rcases hp : findEmptyPathParam st.pathParams with _ | key
  · rcases hq : findMissingQueryParam st.queryParams st.paramValues with _ | name
    · simp only [issuesRequest]
      exact ⟨fun _ => ⟨(findEmptyPathParam_eq_none _).mp hp,
        (findMissingQueryParam_eq_none _ _).mp hq⟩, fun _ => trivial⟩
    · simp only [issuesRequest]
      constructor
      · intro h
        exact h.elim
      · intro h
        rw [(findMissingQueryParam_eq_none _ _).mpr h.2] at hq
        cases hq
  · simp only [issuesRequest]
    constructor
    · intro h
      exact h.elim
    · intro h
      rw [(findEmptyPathParam_eq_none _).mpr h.1] at hp
      cases hp

theorem reviewDimScore_ge_one (pos neg : ℕ) : 1 ≤ reviewDimScore pos neg :=
  le_max_left 1 _

theorem reviewDimScore_le_five (pos neg : ℕ) : reviewDimScore pos neg ≤ 5 :=
  max_le (by norm_num) (min_le_left 5 _)

/-- Claim C5 counterexample: the persisted CultureScore's dimension
columns, exactly as declared by the culture_scores schema, are four —
innovation_score, data_driven_score, ai_awareness_score,
change_readiness_score — not the three textual dimensions
(innovation, leadership, adaptability) named by the claim. -/
theorem cultureDimensions_are_four_not_three :
    cultureScoreDimensionColumns.length = 4 ∧
    specTextualDimensions.length = 3 ∧
    cultureScoreDimensionColumns ≠
      ["innovation_score", "leadership_score", "adaptability_score"] := by
  refine ⟨rfl, rfl, ?_⟩
  decide

/-- Claim C5 (amended): the Rubric Scorer derives for each culture
dimension a raw per-review score that starts at base 3, is adjusted by
positive/negative keyword hit counts, and is clamped to [1,5]; but the
persisted CultureScore carries the four schema dimensions (innovation,
data_driven, ai_awareness, change_readiness), not exactly the three
textual dimensions named innovation, leadership, adaptability. -/
theorem rubric_per_review_clamped :
    (∀ pos neg : ℕ, 1 ≤ reviewDimScore pos neg ∧ reviewDimScore pos neg ≤ 5) ∧
    reviewDimScore 0 0 = 3 ∧
    (∀ (lex : Lexicon) (r : ReviewRecord),
      dimReviewScore lex r =
        reviewDimScore (countHits r.text lex.positive)
          (countHits r.text lex.negative)) ∧
    cultureScoreDimensionColumns.length = 4 := by
  refine ⟨fun pos neg => ⟨reviewDimScore_ge_one pos neg, reviewDimScore_le_five pos neg⟩,
    ?_, fun _ _ => rfl, rfl⟩
  norm_num [reviewDimScore]

theorem recencyWeight_antitone {a b : ℕ} (h : a ≤ b) :
    recencyWeight b ≤ recencyWeight a := by
  unfold recencyWeight
  have ha : (0 : ℚ) < 1 + (a : ℚ) := by positivity
  apply one_div_le_one_div_of_le ha
  have : (a : ℚ) ≤ (b : ℚ) := Nat.cast_le.mpr h
  linarith

theorem recencyWeight_pos (age : ℕ) : 0 < recencyWeight age := by
  unfold recencyWeight
  positivity

theorem employmentWeight_pos (b : Bool) : 0 < employmentWeight b := by
  cases b <;> norm_num [employmentWeight]

theorem reviewWeight_pos (asOf : ℕ) (r : ReviewRecord) :
    0 < reviewWeight asOf r :=
  mul_pos (recencyWeight_pos _) (employmentWeight_pos _)

/-- Claim C6: rubric aggregation weighs each review by
recency_weight × employment_weight; the recency weight decays
monotonically with review age, current employees carry a strictly
higher multiplier than former employees, and of two otherwise identical
reviews the more recent one carries at least as much weight; the
aggregated dimension score is the weighted average under these
weights. -/
theorem review_weighting :
    (∀ (asOf : ℕ) (r : ReviewRecord),
      reviewWeight asOf r
        = recencyWeight (asOf - r.dateEpochDays)
            * employmentWeight r.isCurrentEmployee) ∧
    (∀ a b : ℕ, a ≤ b → recencyWeight b ≤ recencyWeight a) ∧
    employmentWeight false < employmentWeight true ∧
    (∀ (asOf : ℕ) (r : ReviewRecord) (d1 d2 : ℕ), d1 ≤ d2 →
      reviewWeight asOf { r with dateEpochDays := d1 }
        ≤ reviewWeight asOf { r with dateEpochDays := d2 }) ∧
    (∀ (asOf : ℕ) (revs : List ReviewRecord) (lex : Lexicon),
      aggregateDim asOf revs lex
        = weightedAverage asOf revs (dimReviewScore lex)) := by
  refine ⟨fun _ _ => rfl, fun a b h => recencyWeight_antitone h,
    by norm_num [employmentWeight], ?_, fun _ _ _ => rfl⟩
  intro asOf r d1 d2 h
  unfold reviewWeight
  apply mul_le_mul_of_nonneg_right _ (le_of_lt (employmentWeight_pos _))
  exact recencyWeight_antitone (Nat.sub_le_sub_left h asOf)

/-- Claim C6 witness: the review weighting facts at concrete inputs. -/
theorem review_weighting_witness :
    recencyWeight 5 ≤ recencyWeight 3 ∧
    employmentWeight false < employmentWeight true ∧
    reviewWeight 100 ⟨4, "ok", 10, true⟩ ≤ reviewWeight 100 ⟨4, "ok", 20, true⟩ :=
  ⟨review_weighting.2.1 3 5 (by norm_num), review_weighting.2.2.1,
    review_weighting.2.2.2.1 100 ⟨4, "ok", 0, true⟩ 10 20 (by norm_num)⟩

theorem keyCount_upsert (store : List CultureScore) (cs : CultureScore) :
    keyCount (upsertCultureScore store cs) cs.companyId cs.batchDate = 1 := by
  unfold keyCount upsertCultureScore
  rw [List.filter_cons_of_pos (by simp), List.filter_filter]
  simp

theorem upsert_idem (store : List CultureScore) (cs : CultureScore) :
    upsertCultureScore (upsertCultureScore store cs) cs
      = upsertCultureScore store cs := by
  unfold upsertCultureScore
  rw [List.filter_cons_of_neg (by simp), List.filter_filter]
  simp

theorem scoreBatch_ne_nil (companyId batchDate : String) (asOf : ℕ)
    (revs : List ReviewRecord) (hne : revs ≠ []) :
    scoreBatch companyId batchDate asOf revs = some
      { companyId := companyId
        batchDate := batchDate
        innovationScore := aggregateDim asOf revs innovationLexicon
        dataDrivenScore := aggregateDim asOf revs dataDrivenLexicon
        aiAwarenessScore := aggregateDim asOf revs aiAwarenessLexicon
        changeReadinessScore := aggregateDim asOf revs changeReadinessLexicon
        overallSentiment := (revs.map (fun r => r.rating)).sum / revs.length / 5
        reviewCount := revs.length
        avgRating := (revs.map (fun r => r.rating)).sum / revs.length
        confidence := reviewConfidence revs.length } := by
  unfold scoreBatch
  rw [if_neg (by simpa using hne)]

/-- Claim C7: there is at most one CultureScore row per
(target, batch_date) — a run with zero reviews writes no row, a run with
reviews leaves exactly one row for that key regardless of how many rows
the key had before, and recomputing the same batch overwrites rather
than appends. -/
theorem culture_one_row_per_batch (store : List CultureScore)
    (companyId batchDate : String) (asOf : ℕ) (revs : List ReviewRecord) :
    writeCultureBatch store companyId batchDate asOf [] = store ∧
    (revs ≠ [] →
      keyCount (writeCultureBatch store companyId batchDate asOf revs)
        companyId batchDate = 1) ∧
    writeCultureBatch (writeCultureBatch store companyId batchDate asOf revs)
        companyId batchDate asOf revs
      = writeCultureBatch store companyId batchDate asOf revs := by
  refine ⟨rfl, ?_, ?_⟩
  · intro hne
    unfold writeCultureBatch
    rw [scoreBatch_ne_nil companyId batchDate asOf revs hne]
    exact keyCount_upsert store _
  · unfold writeCultureBatch
    rcases h : scoreBatch companyId batchDate asOf revs with _ | cs
    · rfl
    · exact upsert_idem store cs

/-- Claim C7 witness: a zero-review run writes nothing and a 5-review
run leaves exactly one row for the batch key. -/
theorem culture_one_row_per_batch_witness :
    writeCultureBatch [] "GE" "2026-01-01" 1000 [] = [] ∧
    ([⟨4, "agile team", 100, true⟩, ⟨3, "ok", 200, false⟩, ⟨2, "rigid", 300, true⟩,
        ⟨5, "innovative", 400, true⟩, ⟨1, "outdated", 500, false⟩] :
        List ReviewRecord) ≠ [] ∧
    keyCount (writeCultureBatch [] "GE" "2026-01-01" 1000
      [⟨4, "agile team", 100, true⟩, ⟨3, "ok", 200, false⟩, ⟨2, "rigid", 300, true⟩,
        ⟨5, "innovative", 400, true⟩, ⟨1, "outdated", 500, false⟩])
      "GE" "2026-01-01" = 1 := by
  have h := culture_one_row_per_batch [] "GE" "2026-01-01" 1000
    [⟨4, "agile team", 100, true⟩, ⟨3, "ok", 200, false⟩, ⟨2, "rigid", 300, true⟩,
      ⟨5, "innovative", 400, true⟩, ⟨1, "outdated", 500, false⟩]
  exact ⟨h.1, by simp, h.2.1 (by simp)⟩

theorem totalWeight_pos (asOf : ℕ) (revs : List ReviewRecord) (hne : revs ≠ []) :
    0 < (revs.map (reviewWeight asOf)).sum := by
  apply List.sum_pos
  · intro x hx
    rcases List.mem_map.mp hx with ⟨r, _, rfl⟩
    exact reviewWeight_pos asOf r
  · simpa using hne

theorem weightedAverage_le (asOf : ℕ) (revs : List ReviewRecord)
    (f : ReviewRecord → ℚ) (hi : ℚ) (hhi : ∀ r ∈ revs, f r ≤ hi)
    (hne : revs ≠ []) :
    weightedAverage asOf revs f ≤ hi := by
  have htw := totalWeight_pos asOf revs hne
  unfold weightedAverage
  rw [if_neg (ne_of_gt htw), div_le_iff₀ htw]
  calc (revs.map (fun r => reviewWeight asOf r * f r)).sum
      ≤ (revs.map (fun r => reviewWeight asOf r * hi)).sum := by
        apply List.sum_le_sum
        intro r hr
        exact mul_le_mul_of_nonneg_left (hhi r hr)
          (le_of_lt (reviewWeight_pos asOf r))
    _ = hi * (revs.map (reviewWeight asOf)).sum := by
        rw [List.sum_map_mul_right, mul_comm]

theorem weightedAverage_ge (asOf : ℕ) (revs : List ReviewRecord)
    (f : ReviewRecord → ℚ) (lo : ℚ) (hlo : ∀ r ∈ revs, lo ≤ f r)
    (hne : revs ≠ []) :
    lo ≤ weightedAverage asOf revs f := by
  have htw := totalWeight_pos asOf revs hne
  unfold weightedAverage
  rw [if_neg (ne_of_gt htw), le_div_iff₀ htw]
  calc lo * (revs.map (reviewWeight asOf)).sum
      = (revs.map (fun r => reviewWeight asOf r * lo)).sum := by
        rw [List.sum_map_mul_right, mul_comm]
    _ ≤ (revs.map (fun r => reviewWeight asOf r * f r)).sum := by
        apply List.sum_le_sum
        intro r hr
        exact mul_le_mul_of_nonneg_left (hlo r hr)
          (le_of_lt (reviewWeight_pos asOf r))

theorem aggregateDim_bounds (asOf : ℕ) (revs : List ReviewRecord)
    (lex : Lexicon) (hne : revs ≠ []) :
    1 ≤ aggregateDim asOf revs lex ∧ aggregateDim asOf revs lex ≤ 5 :=
  ⟨weightedAverage_ge asOf revs (dimReviewScore lex) 1
      (fun _ _ => reviewDimScore_ge_one _ _) hne,
    weightedAverage_le asOf revs (dimReviewScore lex) 5
      (fun _ _ => reviewDimScore_le_five _ _) hne⟩

theorem reviewConfidence_mono {m n : ℕ} (h : m ≤ n) :
    reviewConfidence m ≤ reviewConfidence n := by
  unfold reviewConfidence
  have hm : (0 : ℚ) < (m : ℚ) + 5 := by positivity
  have hn : (0 : ℚ) < (n : ℚ) + 5 := by positivity
  rw [div_le_div_iff₀ hm hn]
  have : (m : ℚ) ≤ (n : ℚ) := Nat.cast_le.mpr h
  nlinarith

theorem reviewConfidence_lt_one (n : ℕ) : reviewConfidence n < 1 := by
  unfold reviewConfidence
  rw [div_lt_one (by positivity)]
  linarith

/-- Claim C8: with zero reviews the CultureScore is omitted entirely
(`none`), not zero-filled; any non-empty batch — a single review
included — produces a valid CultureScore whose four dimension scores lie
in [1,5] and whose confidence is the review-count confidence; and the
review-count confidence is monotone increasing and saturating (always
strictly below its limit 1). -/
theorem scoreBatch_edge_cases (companyId batchDate : String) (asOf : ℕ) :
    scoreBatch companyId batchDate asOf [] = none ∧
    (∀ revs : List ReviewRecord, revs ≠ [] →
      ∃ cs, scoreBatch companyId batchDate asOf revs = some cs ∧
        cs.reviewCount = revs.length ∧
        cs.confidence = reviewConfidence revs.length ∧
        (1 ≤ cs.innovationScore ∧ cs.innovationScore ≤ 5) ∧
        (1 ≤ cs.dataDrivenScore ∧ cs.dataDrivenScore ≤ 5) ∧
        (1 ≤ cs.aiAwarenessScore ∧ cs.aiAwarenessScore ≤ 5) ∧
        (1 ≤ cs.changeReadinessScore ∧ cs.changeReadinessScore ≤ 5)) ∧
    (∀ m n : ℕ, m ≤ n → reviewConfidence m ≤ reviewConfidence n) ∧
    (∀ n : ℕ, reviewConfidence n < 1) := by
  refine ⟨rfl, ?_, fun m n h => reviewConfidence_mono h, reviewConfidence_lt_one⟩
  intro revs hne
  refine ⟨_, scoreBatch_ne_nil companyId batchDate asOf revs hne, rfl, rfl,
    aggregateDim_bounds asOf revs innovationLexicon hne,
    aggregateDim_bounds asOf revs dataDrivenLexicon hne,
    aggregateDim_bounds asOf revs aiAwarenessLexicon hne,
    aggregateDim_bounds asOf revs changeReadinessLexicon hne⟩

/-- Claim C8 witness: the edge cases at concrete inputs — the empty
batch is omitted, and a single review yields a CultureScore with
confidence 1/6. -/
theorem scoreBatch_edge_cases_witness :
    scoreBatch "GE" "2026-01-01" 1000 [] = none ∧
    (∃ cs, scoreBatch "GE" "2026-01-01" 1000 [⟨4, "innovative", 900, true⟩]
        = some cs ∧
      cs.reviewCount = 1 ∧
      cs.confidence = reviewConfidence 1 ∧
      (1 ≤ cs.innovationScore ∧ cs.innovationScore ≤ 5) ∧
      (1 ≤ cs.dataDrivenScore ∧ cs.dataDrivenScore ≤ 5) ∧
      (1 ≤ cs.aiAwarenessScore ∧ cs.aiAwarenessScore ≤ 5) ∧
      (1 ≤ cs.changeReadinessScore ∧ cs.changeReadinessScore ≤ 5)) ∧
    reviewConfidence 1 ≤ reviewConfidence 5 ∧
    reviewConfidence 7 < 1 := by
  have h := scoreBatch_edge_cases "GE" "2026-01-01" 1000
  refine ⟨h.1, ?_, h.2.2.1 1 5 (by norm_num), h.2.2.2 7⟩
  have h2 := h.2.1 [⟨4, "innovative", 900, true⟩] (by simp)
  rcases h2 with ⟨cs, hcs, hrest⟩
  exact ⟨cs, hcs, by simpa using hrest⟩

/-- Claim C1: re-running the pipeline on identical inputs is idempotent —
starting from any store whose content hashes are duplicate-free, a second
run on the same observations changes nothing, the resulting store has
zero duplicate Signal rows (its content hashes stay duplicate-free), and
the CompositeScore re-derived from the store is identical. -/
theorem pipeline_idempotent (store obs : List Signal)
    (h : (store.map contentHash).Nodup) :
    runPipeline (runPipeline store obs) obs = runPipeline store obs ∧
    ((runPipeline (runPipeline store obs) obs).map contentHash).Nodup ∧
    compositeOfStore (runPipeline (runPipeline store obs) obs)
      = compositeOfStore (runPipeline store obs) := by
  refine ⟨runPipeline_idem store obs, ?_, ?_⟩
  · rw [runPipeline_idem]
    exact runPipeline_nodup obs store h
  · rw [runPipeline_idem]

/-- Claim C1 witness: the idempotence facts starting from the empty
store on a two-observation batch that itself contains a duplicate. -/
theorem pipeline_idempotent_witness :
    (([] : List Signal).map contentHash).Nodup ∧
    (runPipeline
        (runPipeline []
          [⟨"CAT", "technology_hiring", "jobspy", "2026-01-15", "12 AI roles", 80, 9/10⟩,
           ⟨"CAT", "technology_hiring", "jobspy", "2026-01-15", "12 AI roles", 80, 9/10⟩])
        [⟨"CAT", "technology_hiring", "jobspy", "2026-01-15", "12 AI roles", 80, 9/10⟩,
         ⟨"CAT", "technology_hiring", "jobspy", "2026-01-15", "12 AI roles", 80, 9/10⟩]
      = runPipeline []
          [⟨"CAT", "technology_hiring", "jobspy", "2026-01-15", "12 AI roles", 80, 9/10⟩,
           ⟨"CAT", "technology_hiring", "jobspy", "2026-01-15", "12 AI roles", 80, 9/10⟩]) ∧
    ((runPipeline
        (runPipeline []
          [⟨"CAT", "technology_hiring", "jobspy", "2026-01-15", "12 AI roles", 80, 9/10⟩,
           ⟨"CAT", "technology_hiring", "jobspy", "2026-01-15", "12 AI roles", 80, 9/10⟩])
        [⟨"CAT", "technology_hiring", "jobspy", "2026-01-15", "12 AI roles", 80, 9/10⟩,
         ⟨"CAT", "technology_hiring", "jobspy", "2026-01-15", "12 AI roles", 80, 9/10⟩]).map
      contentHash).Nodup ∧
    compositeOfStore
        (runPipeline
          (runPipeline []
            [⟨"CAT", "technology_hiring", "jobspy", "2026-01-15", "12 AI roles", 80, 9/10⟩,
             ⟨"CAT", "technology_hiring", "jobspy", "2026-01-15", "12 AI roles", 80, 9/10⟩])
          [⟨"CAT", "technology_hiring", "jobspy", "2026-01-15", "12 AI roles", 80, 9/10⟩,
           ⟨"CAT", "technology_hiring", "jobspy", "2026-01-15", "12 AI roles", 80, 9/10⟩])
      = compositeOfStore
          (runPipeline []
            [⟨"CAT", "technology_hiring", "jobspy", "2026-01-15", "12 AI roles", 80, 9/10⟩,
             ⟨"CAT", "technology_hiring", "jobspy", "2026-01-15", "12 AI roles", 80, 9/10⟩]) := by
  have h := pipeline_idempotent []
    [⟨"CAT", "technology_hiring", "jobspy", "2026-01-15", "12 AI roles", 80, 9/10⟩,
     ⟨"CAT", "technology_hiring", "jobspy", "2026-01-15", "12 AI roles", 80, 9/10⟩]
    (by simp)
  exact ⟨by simp, h.1, h.2.1, h.2.2⟩

/-- The C2 scenario dimension inputs: hiring 80 (confidence 0.9),
innovation 60 (confidence 0.7), digital 70 (confidence 0.8), leadership
unavailable. -/
def c2Dims : Fin 4 → Option DimInput
  | 0 => some ⟨80, 9/10⟩
  | 1 => some ⟨60, 7/10⟩
  | 2 => some ⟨70, 4/5⟩
  | 3 => none

/-- Claim C2 counterexample: on the scenario inputs the composite equals
(80×0.30 + 60×0.25 + 70×0.25)/(0.30 + 0.25 + 0.25) = 565/8 = 70.625
exactly, which is strictly below 70.66 and hence not ≈ 70.67 at the two
decimal places the claim states (70.625 rounds to 70.63). -/
theorem composite_scenario_not_70_67 :
    compositeScore c2Dims = 565/8 ∧ compositeScore c2Dims < 7066/100 := by
  constructor <;>
    norm_num [compositeScore, weightedScoreSum, presentWeight,
      Fin.sum_univ_four, c2Dims, dimWeight]

/-- Claim C2 (amended): the composite is the weighted sum with fixed
weights 0.30/0.25/0.25/0.20; a missing dimension contributes score 0 and
its weight is redistributed proportionally over the dimensions with data
(the used weights still sum to 1, with 0 for the missing dimension), so
on the scenario inputs the composite equals
(80×0.30 + 60×0.25 + 70×0.25)/(0.30 + 0.25 + 0.25) = 70.625 (≈ 70.63,
not 70.67). -/
theorem composite_scenario_value :
    compositeScore c2Dims
        = (80 * (3/10) + 60 * (1/4) + 70 * (1/4)) / ((3/10) + (1/4) + (1/4)) ∧
    compositeScore c2Dims = 565/8 ∧
    dimWeight 0 = 3/10 ∧ dimWeight 1 = 1/4 ∧ dimWeight 2 = 1/4 ∧
    dimWeight 3 = 1/5 ∧
    (∑ i, usedWeight c2Dims i) = 1 ∧
    usedWeight c2Dims 3 = 0 := by
  refine ⟨?_, ?_, rfl, rfl, rfl, rfl, ?_, ?_⟩ <;>
    norm_num [compositeScore, weightedScoreSum, presentWeight, usedWeight,
      Fin.sum_univ_four, c2Dims, dimWeight]

/-- Claim C3: for every dimension-input set whose present scores lie in
[0,100], the composite score lies in [0,100], and whenever any dimension
has data the weights actually used in the combination — after
redistributing missing dimensions' weights — sum to 1. -/
theorem composite_bounds (dims : Fin 4 → Option DimInput)
    (h : ∀ i d, dims i = some d → 0 ≤ d.score ∧ d.score ≤ 100) :
    0 ≤ compositeScore dims ∧ compositeScore dims ≤ 100 ∧
    (presentWeight dims ≠ 0 → ∑ i, usedWeight dims i = 1) :=
  ⟨compositeScore_nonneg dims fun i d hd => (h i d hd).1,
    compositeScore_le dims fun i d hd => (h i d hd).2,
    usedWeight_sum dims⟩

/-- Claim C3 witness: the bounds and the weight sum at the scenario
inputs. -/
theorem composite_bounds_witness :
    0 ≤ compositeScore c2Dims ∧ compositeScore c2Dims ≤ 100 ∧
    (∑ i, usedWeight c2Dims i) = 1 := by
  have h := composite_bounds c2Dims (by
    intro i d hd
    fin_cases i <;> simp [c2Dims] at hd <;> rw [← hd] <;> norm_num)
  refine ⟨h.1, h.2.1, h.2.2 ?_⟩
  norm_num [presentWeight, Fin.sum_univ_four, c2Dims, dimWeight]

/-- The C4 counterexample dimension inputs for run A: hiring present
with confidence 0 (weight 0.30), leadership present with confidence 1
(weight 0.20), innovation and digital unavailable. -/
def c4Dims : Fin 4 → Option DimInput
  | 0 => some ⟨50, 0⟩
  | 1 => none
  | 2 => none
  | 3 => some ⟨50, 1⟩

/-- The C4 counterexample dimension inputs for run B: run A with the
hiring dimension removed. -/
def c4DimsB : Fin 4 → Option DimInput
  | 0 => none
  | 1 => none
  | 2 => none
  | 3 => some ⟨50, 1⟩

/-- Claim C4 counterexample: run B differs from run A only in that the
hiring dimension present in A (with confidence 0) is missing in B, yet
the overall confidence of A (0.2) is strictly below that of B (0.25), so
confidence(B) ≤ confidence(A) fails. -/
theorem confidence_not_monotone :
    c4Dims 0 = some ⟨50, 0⟩ ∧
    c4DimsB = Function.update c4Dims 0 none ∧
    overallConfidence c4Dims < overallConfidence c4DimsB := by
  refine ⟨rfl, by funext i; fin_cases i <;> rfl, ?_⟩
  have hwA : presentWeight c4Dims = 1/2 := by
    rw [presentWeight, Fin.sum_univ_four]
    norm_num [c4Dims, dimWeight]
  have hwB : presentWeight c4DimsB = 1/5 := by
    rw [presentWeight, Fin.sum_univ_four]
    norm_num [c4DimsB, dimWeight]
  have hcA : weightedConfSum c4Dims = 1/5 := by
    rw [weightedConfSum, Fin.sum_univ_four]
    norm_num [c4Dims, dimWeight]
  have hcB : weightedConfSum c4DimsB = 1/5 := by
    rw [weightedConfSum, Fin.sum_univ_four]
    norm_num [c4DimsB, dimWeight]
  have hkA : presentCount c4Dims = 2 := by
    rw [presentCount, Fin.sum_univ_four]
    norm_num [c4Dims]
  have hkB : presentCount c4DimsB = 1 := by
    rw [presentCount, Fin.sum_univ_four]
    norm_num [c4DimsB]
  rw [overallConfidence, overallConfidence, hwA, hwB, hcA, hcB, hkA, hkB]
  norm_num

/-- Claim C4 (amended): overall confidence is the weighted average of
the present dimensions' confidences discounted by the fraction of
dimensions present, and dropping one present dimension lowers (or
preserves) the overall confidence provided the dropped dimension's
confidence is at least the weighted average of the remaining present
dimensions' confidences — in particular whenever all present confidences
are equal; without that proviso monotonicity can fail. -/
theorem confidence_monotone_amended (dims : Fin 4 → Option DimInput)
    (j : Fin 4) (d : DimInput) (hj : dims j = some d)
    (hconf : ∀ i d', dims i = some d' → 0 ≤ d'.confidence)
    (havg : weightedConfSum (Function.update dims j none)
      ≤ d.confidence * presentWeight (Function.update dims j none)) :
    overallConfidence (Function.update dims j none)
      ≤ overallConfidence dims := by
  have hBconf : ∀ i d', Function.update dims j none i = some d' →
      0 ≤ d'.confidence := by
    intro i d' hi
    by_cases hij : i = j
    · subst hij
      rw [Function.update_same] at hi
      cases hi
    · rw [Function.update_noteq hij] at hi
      exact hconf i d' hi
  by_cases hB0 : presentWeight (Function.update dims j none) = 0
  · rw [overallConfidence, if_pos hB0]
    exact overallConfidence_nonneg dims hconf
  · have hWB : 0 < presentWeight (Function.update dims j none) :=
      lt_of_le_of_ne (presentWeight_nonneg _) (Ne.symm hB0)
    have hWA := presentWeight_update dims j d hj
    have hCA := weightedConfSum_update dims j d hj
    have hkA := presentCount_update dims j d hj
    have hA0 : presentWeight dims ≠ 0 := by
      rw [← hWA]
      have := dimWeight_pos j
      positivity
    rw [overallConfidence, overallConfidence, if_neg hB0, if_neg hA0,
      ← hWA, ← hCA, ← hkA]
    have hcast : ((presentCount (Function.update dims j none) + 1 : ℕ) : ℚ)
        = (presentCount (Function.update dims j none) : ℚ) + 1 := by
      push_cast
      ring
    rw [hcast]
    exact confidence_discount_core
      (weightedConfSum (Function.update dims j none))
      (presentWeight (Function.update dims j none))
      (dimWeight j) d.confidence
      (presentCount (Function.update dims j none))
      (weightedConfSum_nonneg _ hBconf) hWB (dimWeight_pos j) havg

/-- The C4 amended-claim witness inputs: hiring and leadership present
with equal confidence 1/2. -/
def c4EqDims : Fin 4 → Option DimInput
  | 0 => some ⟨50, 1/2⟩
  | 1 => none
  | 2 => none
  | 3 => some ⟨50, 1/2⟩

/-- The C4 amended-claim witness inputs with the hiring dimension
removed. -/
def c4EqDimsB : Fin 4 → Option DimInput
  | 0 => none
  | 1 => none
  | 2 => none
  | 3 => some ⟨50, 1/2⟩

/-- Claim C4 amended witness: dropping the hiring dimension from a run
whose present confidences are equal lowers the overall confidence. -/
theorem confidence_monotone_amended_witness :
    overallConfidence (Function.update c4EqDims 0 none)
      ≤ overallConfidence c4EqDims := by
  have hupd : Function.update c4EqDims 0 none = c4EqDimsB := by
    funext i
    fin_cases i <;> rfl
  apply confidence_monotone_amended c4EqDims 0 ⟨50, 1/2⟩ rfl
  · intro i d' hd
    fin_cases i <;> simp [c4EqDims] at hd <;> rw [← hd] <;> norm_num
  · rw [hupd]
    have hw : presentWeight c4EqDimsB = 1/5 := by
      rw [presentWeight, Fin.sum_univ_four]
      norm_num [c4EqDimsB, dimWeight]
    have hc : weightedConfSum c4EqDimsB = 1/10 := by
      rw [weightedConfSum, Fin.sum_univ_four]
      norm_num [c4EqDimsB, dimWeight]
    rw [hw, hc]
    norm_num
